import Mathlib

/-!
Verification of the responsive value resolution engine of
react-responsive-system: breakpoint normalization (`createResponsiveSystem`
in src/impl.tsx), cascade resolution (`getApplicableScreenClasses`),
override application (`applyOverrides`), and the deep-merge core
(`mergeArrays` in src/merge.ts together with the deepmerge npm package it
configures, as invoked from `useResponsiveProps` in src/index.tsx).

JS data values (the defaults and overrides being merged) are embedded as
the inductive type `Val`: null, booleans, numbers, strings, arrays and
plain objects.  Objects are association lists in insertion order, which is
how JS objects present their own enumerable string keys.  Breakpoint
widths (positive numbers or the sentinel `Infinity`) are embedded as
`ℕ∞ = WithTop ℕ`, with `⊤` playing the role of `Infinity`.
-/

namespace ResponsiveSystem

/-- A JS data value: scalars (null, boolean, number, string), arrays, and
plain objects given as association lists of own enumerable keys in
insertion order. -/
inductive Val where
  | vnull : Val
  | vbool (b : Bool) : Val
  | vnum (n : Int) : Val
  | vstr (s : String) : Val
  | varr (items : List Val) : Val
  | vobj (entries : List (String × Val)) : Val

/-- The deepmerge package's default `isMergeableObject`: a non-null value of
object type (arrays included).  Scalars, null included, are not mergeable. -/
def Val.isMergeable : Val → Bool
  | .varr _ => true
  | .vobj _ => true
  | _ => false

/-- JS property read `obj[key]` on a plain object: the value at the key, or
none when the key is absent.  `assocGet o k = some v` also models
`Object.hasOwnProperty.call(o, k)` being true. -/
def assocGet {β : Type} : List (String × β) → String → Option β
  | [], _ => none
  | (k2, v) :: rest, k => if k2 = k then some v else assocGet rest k

/-- JS property write `obj[key] = v` on a plain object: overwrite the value
at an existing key in place, otherwise append the new key at the end. -/
def setOrAppend : List (String × Val) → String → Val → List (String × Val)
  | [], k, v => [(k, v)]
  | (k2, v2) :: rest, k, v =>
    if k2 = k then (k2, v) :: rest else (k2, v2) :: setOrAppend rest k v

mutual

/-- Modelled from the spec: the deepmerge npm package's `deepmerge(base,
override, { arrayMerge: mergeArrays })` as configured by src/merge.ts is a
dependency not under src/.  Following section 4.3 of the spec: a scalar
override (null included) replaces the base entirely; two arrays merge
positionally through the repository's `mergeArrays`; two keyed mappings
merge key-by-key through `mergeObjects`; when the kinds disagree the
override replaces the base.  Cloning is the identity on pure values. -/
def deepMerge (base override : Val) : Val :=
  match override with
  | .varr os =>
    match base with
    | .varr bs => .varr (mergeArrays bs os)
    | _ => .varr os
  | .vobj oents =>
    match base with
    | .vobj bents => .vobj (mergeObjects bents oents)
    | _ => .vobj oents
  | o => o
termination_by sizeOf override
decreasing_by all_goals simp_wf

/-- The custom array merge of src/merge.ts (`mergeArrays`): clone the base
array, then for each index of the override array, if the override item is
mergeable, merge it with the base item (which is `undefined`, embedded as
`Val.vnull`, when the base array is shorter), otherwise replace the base
item with the override item. -/
def mergeArrays (base override : List Val) : List Val :=
  match base, override with
  | bs, [] => bs
  | [], o :: os =>
    (if o.isMergeable then deepMerge .vnull o else o) :: mergeArrays [] os
  | b :: bs, o :: os =>
    (if o.isMergeable then deepMerge b o else o) :: mergeArrays bs os
termination_by sizeOf override
decreasing_by all_goals (simp_wf <;> omega)

/-- Modelled from the spec: the deepmerge package's `mergeObject` is a
dependency not under src/.  Following section 4.3 of the spec: the result
has the union of the keys; for keys present in both mappings, if both
values are mergeable they are merged recursively, otherwise the override's
value wins; keys present on only one side keep that side's value.  The
base mapping's keys keep their positions and new override keys are
appended in override order, as the package's destination-object writes
do. -/
def mergeObjects (acc override : List (String × Val)) : List (String × Val) :=
  match override with
  | [] => acc
  | (k, ov) :: rest =>
    let merged :=
      match assocGet acc k with
      | some bv => if bv.isMergeable && ov.isMergeable then deepMerge bv ov else ov
      | none => ov
    mergeObjects (setOrAppend acc k merged) rest
termination_by sizeOf override
decreasing_by all_goals (simp_wf <;> omega)

end

/-- The exported `merge` of src/merge.ts: `deepMerge.all(propsObjects, {
arrayMerge: mergeArrays })`, i.e. a left fold of `deepMerge` over the
given objects starting from the empty object. -/
def merge (propsObjects : List Val) : Val :=
  propsObjects.foldl deepMerge (.vobj [])

/-- The Override Merger of spec section 4.3, the engine boundary's
`mergeOverrides`: start from the default value and, for each class in the
ordered eligible sequence that has an entry in the override set, deep-merge
that entry on top of the accumulated result.  This is the loop inlined in
`useResponsiveProps` (src/index.tsx lines 249-268), which folds `merge`
over the base props and the applicable screen classes' override objects. -/
def mergeOverrides (defaultValue : Val) (overrides : List (String × Val))
    (applicable : List String) : Val :=
  applicable.foldl
    (fun acc sc =>
      match assocGet overrides sc with
      | some ov => deepMerge acc ov
      | none => acc)
    defaultValue

/-- The `applyOverrides` of src/impl.tsx (lines 144-161): walk the
applicable screen classes in order and, whenever the override set has an
own property for the class, replace the accumulated value with the stored
value — even when that stored value is `undefined`, embedded here as
values of type `Option α` with `none` for `undefined`. -/
def applyOverrides {α : Type} (applicableScreenClasses : List String)
    (defaultValue : Option α) (overrides : List (String × Option α)) : Option α :=
  applicableScreenClasses.foldl
    (fun acc sc =>
      match assocGet overrides sc with
      | some v => v
      | none => acc)
    defaultValue

/-- The cascade mode configuration constant of src/impl.tsx. -/
inductive CascadeMode where
  | noCascade : CascadeMode
  | mobileFirst : CascadeMode
  | desktopFirst : CascadeMode
deriving DecidableEq

/-- JS `Array.prototype.indexOf`: the index of the first occurrence, or -1
when the element is absent. -/
def jsIndexOf (l : List String) (c : String) : Int :=
  if c ∈ l then (l.indexOf c : Int) else -1

/-- Index clamping of JS `Array.prototype.slice`: a negative index counts
from the end of the array, and indices are clamped to the array bounds. -/
def jsSliceIndex {α : Type} (l : List α) (i : Int) : Int :=
  if i < 0 then max ((l.length : Int) + i) 0 else min i (l.length : Int)

/-- JS `Array.prototype.slice(start, stop)`. -/
def jsSlice {α : Type} (l : List α) (start stop : Int) : List α :=
  (l.drop (jsSliceIndex l start).toNat).take
    (jsSliceIndex l stop - jsSliceIndex l start).toNat

/-- JS `Array.prototype.slice(start)` with one argument: slice to the end. -/
def jsSliceFrom {α : Type} (l : List α) (start : Int) : List α :=
  jsSlice l start l.length

/-- The cascade resolver `getApplicableScreenClasses` of src/impl.tsx
(lines 112-139): mobile-first takes `slice(0, indexOf(current) + 1)`,
desktop-first takes `slice(indexOf(current))` reversed, and no-cascade
(the default switch branch) returns just the current class. -/
def getApplicableScreenClasses (sortedScreenClasses : List String)
    (currentScreenClass : String) (cascadeMode : CascadeMode) : List String :=
  match cascadeMode with
  | .mobileFirst =>
    jsSlice sortedScreenClasses 0
      (jsIndexOf sortedScreenClasses currentScreenClass + 1)
  | .desktopFirst =>
    (jsSliceFrom sortedScreenClasses
      (jsIndexOf sortedScreenClasses currentScreenClass)).reverse
  | .noCascade => [currentScreenClass]

/-! Helper lemmas about the JS array primitives. -/

theorem jsIndexOf_first_occurrence (l1 l2 : List String) (c : String)
    (hc : c ∉ l1) : jsIndexOf (l1 ++ c :: l2) c = l1.length := by
  unfold jsIndexOf
  rw [if_pos (by simp)]
  rw [List.indexOf_append_of_not_mem hc]
  simp

theorem jsIndexOf_not_mem (l : List String) (c : String) (hc : c ∉ l) :
    jsIndexOf l c = -1 :=
  if_neg hc

theorem jsSliceIndex_nonneg {α : Type} (l : List α) (i : Int) (h0 : 0 ≤ i) :
    jsSliceIndex l i = min i (l.length : Int) := by
  unfold jsSliceIndex
  rw [if_neg (by omega)]

theorem jsSlice_zero_nonneg {α : Type} (l : List α) (k : Int) (hk : 0 ≤ k) :
    jsSlice l 0 k = l.take k.toNat := by
  unfold jsSlice
  rw [jsSliceIndex_nonneg l 0 (by omega), jsSliceIndex_nonneg l k hk]
  have h0 : (min (0 : Int) (l.length : Int)).toNat = 0 := by omega
  have h1 : (min k (l.length : Int) - min (0 : Int) (l.length : Int)).toNat =
      min k.toNat l.length := by omega
  rw [h0, h1, List.drop_zero]
  rw [List.take_eq_take]
  omega

theorem jsSliceFrom_nonneg {α : Type} (l : List α) (n : Int) (h0 : 0 ≤ n)
    (hn : n ≤ l.length) : jsSliceFrom l n = l.drop n.toNat := by
  unfold jsSliceFrom jsSlice
  rw [jsSliceIndex_nonneg l n h0, jsSliceIndex_nonneg l _ (by omega)]
  have h1 : (min n (l.length : Int)).toNat = n.toNat := by omega
  have h2 : (min (l.length : Int) (l.length : Int) - min n (l.length : Int)).toNat =
      l.length - n.toNat := by omega
  rw [h1, h2]
  apply List.take_of_length_le
  simp

theorem drop_length_sub_one {α : Type} : ∀ (l : List α),
    l.drop (l.length - 1) = l.getLast?.toList
  | [] => by simp
  | [a] => by simp
  | a :: b :: t => by
    have ih := drop_length_sub_one (b :: t)
    simp only [List.length_cons] at ih ⊢
    simpa [List.getLast?_cons_cons] using ih

theorem jsSliceFrom_neg_one {α : Type} (l : List α) :
    jsSliceFrom l (-1) = l.getLast?.toList := by
  unfold jsSliceFrom jsSlice
  cases l with
  | nil => rfl
  | cons x xs =>
    have hstart : jsSliceIndex (x :: xs) (-1) = ((x :: xs).length : Int) - 1 := by
      unfold jsSliceIndex
      rw [if_pos (by omega)]
      have hpos : 1 ≤ (x :: xs).length := by simp
      omega
    have hstop : jsSliceIndex (x :: xs) ((x :: xs).length : Int) =
        ((x :: xs).length : Int) := by
      unfold jsSliceIndex
      rw [if_neg (by omega)]
      omega
    rw [hstart, hstop]
    have hpos : 1 ≤ (x :: xs).length := by simp
    have h1 : (((x :: xs).length : Int) - 1).toNat = (x :: xs).length - 1 := by
      omega
    have h2 : (((x :: xs).length : Int) - (((x :: xs).length : Int) - 1)).toNat
        = 1 := by omega
    rw [h1, h2, drop_length_sub_one]
    have : ∃ y, (x :: xs).getLast? = some y := by
      cases h : (x :: xs).getLast? with
      | none => exact absurd (List.getLast?_eq_none_iff.mp h) (by simp)
      | some y => exact ⟨y, rfl⟩
    obtain ⟨y, hy⟩ := this
    rw [hy]
    rfl

/-- First-occurrence decomposition of list membership. -/
theorem mem_first_decomp {c : String} :
    ∀ {l : List String}, c ∈ l → ∃ l1 l2, l = l1 ++ c :: l2 ∧ c ∉ l1 := by
  intro l hc
  induction l with
  | nil => simp at hc
  | cons a t ih =>
    by_cases h : c = a
    · exact ⟨[], t, by simp [h], by simp⟩
    · obtain ⟨l1, l2, heq, hnot⟩ := ih (by
        rcases List.mem_cons.mp hc with h1 | h1
        · exact absurd h1 h
        · exact h1)
      exact ⟨a :: l1, l2, by simp [heq], by simp [hnot, h]⟩

/-! Behavior of the cascade resolver at a current class that is present. -/

theorem getApplicableScreenClasses_mobile (l1 l2 : List String) (c : String)
    (hc : c ∉ l1) :
    getApplicableScreenClasses (l1 ++ c :: l2) c .mobileFirst = l1 ++ [c] := by
  simp only [getApplicableScreenClasses]
  rw [jsIndexOf_first_occurrence l1 l2 c hc, jsSlice_zero_nonneg _ _ (by omega)]
  have h1 : ((l1.length : Int) + 1).toNat = l1.length + 1 := by omega
  rw [h1]
  simpa using @List.take_append String l1 (c :: l2) 1

theorem getApplicableScreenClasses_desktop (l1 l2 : List String) (c : String)
    (hc : c ∉ l1) :
    getApplicableScreenClasses (l1 ++ c :: l2) c .desktopFirst =
      l2.reverse ++ [c] := by
  simp only [getApplicableScreenClasses]
  rw [jsIndexOf_first_occurrence l1 l2 c hc,
    jsSliceFrom_nonneg _ _ (by omega) (by simp; omega)]
  have h1 : ((l1.length : Int)).toNat = l1.length := by omega
  rw [h1]
  rw [List.drop_left]
  simp

/-! Behavior of the cascade resolver at a current class that is absent. -/

theorem getApplicableScreenClasses_mobile_not_mem (l : List String) (c : String)
    (hc : c ∉ l) : getApplicableScreenClasses l c .mobileFirst = [] := by
  simp only [getApplicableScreenClasses]
  rw [jsIndexOf_not_mem l c hc]
  rw [show (-1 : Int) + 1 = 0 by omega, jsSlice_zero_nonneg _ _ (by omega)]
  simp

theorem getApplicableScreenClasses_desktop_not_mem (l : List String) (c : String)
    (hc : c ∉ l) :
    getApplicableScreenClasses l c .desktopFirst = l.getLast?.toList := by
  simp only [getApplicableScreenClasses]
  rw [jsIndexOf_not_mem l c hc, jsSliceFrom_neg_one]
  cases h : l.getLast? with
  | none => rfl
  | some y => rfl

/-- C1: for every sorted screen-class list, every cascade mode, and every
current class that is a member of the list (the list is presented by its
first-occurrence decomposition `l1 ++ c :: l2`, widths by an assignment
`w`), the cascade resolver returns: for no-cascade exactly `[c]`; for
mobile-first exactly the classes from the smallest up to and including
`c`; for desktop-first exactly the classes from the largest down to and
including `c`; and when the list is ascending by width, the mobile-first
output is ascending and the desktop-first output is descending. -/
theorem C1_cascade_resolver_modes (l1 l2 : List String) (c : String)
    (w : String → ℕ∞) (hc : c ∉ l1) :
    getApplicableScreenClasses (l1 ++ c :: l2) c .noCascade = [c] ∧
    getApplicableScreenClasses (l1 ++ c :: l2) c .mobileFirst = l1 ++ [c] ∧
    getApplicableScreenClasses (l1 ++ c :: l2) c .desktopFirst =
      l2.reverse ++ [c] ∧
    ((l1 ++ c :: l2).Pairwise (fun a b => w a ≤ w b) →
      (l1 ++ [c]).Pairwise (fun a b => w a ≤ w b) ∧
      (l2.reverse ++ [c]).Pairwise (fun a b => w b ≤ w a)) := by
  refine ⟨rfl, getApplicableScreenClasses_mobile l1 l2 c hc,
    getApplicableScreenClasses_desktop l1 l2 c hc, fun hsorted => ⟨?_, ?_⟩⟩
  · exact hsorted.sublist
      (List.append_sublist_append_left l1 |>.mpr
        ((List.nil_sublist l2).cons₂ c))
  · have hsuffix : (c :: l2).Pairwise (fun a b => w a ≤ w b) :=
      hsorted.sublist (List.sublist_append_right l1 (c :: l2))
    have := List.pairwise_reverse.mpr hsuffix
    simpa using this

/-- Witness for C1 at a concrete sorted list and member class. -/
theorem C1_witness :
    ("sm" ∉ (["xs"] : List String)) ∧
    getApplicableScreenClasses ["xs", "sm", "md"] "sm" .mobileFirst =
      ["xs", "sm"] :=
  ⟨by decide, (C1_cascade_resolver_modes ["xs"] ["md"] "sm" (fun _ => 0)
    (by decide)).2.1⟩

/-- C6 counterexample: at a current class absent from the sorted list the
resolver does not fail; it silently returns a sequence for each mode
(empty for mobile-first, the largest class for desktop-first, the unknown
class itself for no-cascade). -/
theorem C6_counterexample :
    getApplicableScreenClasses ["xs", "sm"] "zz" .mobileFirst = [] ∧
    getApplicableScreenClasses ["xs", "sm"] "zz" .desktopFirst = ["sm"] ∧
    getApplicableScreenClasses ["xs", "sm"] "zz" .noCascade = ["zz"] := by
  refine ⟨by decide, by decide, by decide⟩

/-- C6 amended: for every sorted screen-class list and every current-class
value that is not a member of the list, the cascade resolver does not
fail: it returns the empty sequence for mobile-first, the sequence holding
just the last (largest) class for desktop-first, and `[currentClass]` for
no-cascade. -/
theorem C6_resolver_silent_on_unknown_class (l : List String) (c : String)
    (hc : c ∉ l) :
    getApplicableScreenClasses l c .mobileFirst = [] ∧
    getApplicableScreenClasses l c .desktopFirst = l.getLast?.toList ∧
    getApplicableScreenClasses l c .noCascade = [c] :=
  ⟨getApplicableScreenClasses_mobile_not_mem l c hc,
    getApplicableScreenClasses_desktop_not_mem l c hc, rfl⟩

/-- Witness for C6 at a concrete list and unknown class. -/
theorem C6_witness :
    ("lg" ∉ (["xs", "sm", "md"] : List String)) ∧
    getApplicableScreenClasses ["xs", "sm", "md"] "lg" .mobileFirst = [] :=
  ⟨by decide, (C6_resolver_silent_on_unknown_class ["xs", "sm", "md"] "lg"
    (by decide)).1⟩

/-- C7 counterexample: at a current class absent from the list the
mobile-first sequence is empty, so it does not end with the current
class. -/
theorem C7_counterexample :
    (getApplicableScreenClasses ["xs", "sm"] "zz" .mobileFirst).getLast? ≠
      some "zz" := by
  decide

/-- C7 amended: the cascade resolver is deterministic (equal inputs give
equal outputs), and for every triple whose current class is a member of
the sorted list the returned sequence ends with the current class. -/
theorem C7_cascade_determinism_ends_with_current (l : List String)
    (c : String) (m : CascadeMode) :
    (∀ l' c' m', l = l' → c = c' → m = m' →
      getApplicableScreenClasses l c m =
        getApplicableScreenClasses l' c' m') ∧
    (c ∈ l → (getApplicableScreenClasses l c m).getLast? = some c) := by
  constructor
  · intro l' c' m' h1 h2 h3
    rw [h1, h2, h3]
  · intro hc
    obtain ⟨l1, l2, rfl, hnot⟩ := mem_first_decomp hc
    cases m with
    | noCascade => rfl
    | mobileFirst =>
      rw [getApplicableScreenClasses_mobile l1 l2 c hnot]
      exact List.getLast?_concat l1
    | desktopFirst =>
      rw [getApplicableScreenClasses_desktop l1 l2 c hnot]
      exact List.getLast?_concat l2.reverse

/-- Witness for C7 at a concrete list and member class. -/
theorem C7_witness :
    ("sm" ∈ (["xs", "sm", "md"] : List String)) ∧
    (getApplicableScreenClasses ["xs", "sm", "md"] "sm"
      .desktopFirst).getLast? = some "sm" :=
  ⟨by decide, (C7_cascade_determinism_ends_with_current ["xs", "sm", "md"]
    "sm" .desktopFirst).2 (by decide)⟩

/-! The Breakpoint Normalizer.  A breakpoint map is an association list of
screen-class names to maximum pixel-widths; widths live in `ℕ∞` with `⊤`
for the `Infinity` sentinel. -/

/-- The fatal configuration error thrown by `createResponsiveSystem`
(src/impl.tsx lines 176-187). -/
inductive ConfigurationError where
  | configurationError (msg : String) : ConfigurationError
deriving DecidableEq

/-- The `sortBreakpoints` of src/impl.tsx (lines 98-104):
`Object.entries(breakpoints).sort((a, b) => a[1] - b[1])`.  JS
`Array.prototype.sort` is a stable sort consistent with the subtraction
comparator, which orders entries by width; a stable insertion sort on the
width order produces the same output. -/
def sortBreakpoints (breakpoints : List (String × ℕ∞)) :
    List (String × ℕ∞) :=
  breakpoints.insertionSort (fun e1 e2 => e1.2 ≤ e2.2)

instance : IsTotal (String × ℕ∞) (fun e1 e2 => e1.2 ≤ e2.2) :=
  ⟨fun a b => le_total a.2 b.2⟩

instance : IsTrans (String × ℕ∞) (fun e1 e2 => e1.2 ≤ e2.2) :=
  ⟨fun _ _ _ h1 h2 => le_trans h1 h2⟩

/-- The validation portion of `createResponsiveSystem` (src/impl.tsx lines
176-193), the spec boundary's `normalize`: fewer than 2 entries, or a
count of `Infinity` widths different from 1, is a fatal configuration
error; otherwise the sorted screen class list is produced. -/
def normalize (breakpoints : List (String × ℕ∞)) :
    Except ConfigurationError (List (String × ℕ∞)) :=
  if (breakpoints.map Prod.snd).length < 2 then
    .error (.configurationError
      "breakpoints must have at least 2 keys")
  else if (breakpoints.map Prod.snd).count ⊤ ≠ 1 then
    .error (.configurationError
      "breakpoints must have exactly 1 entry with no maximum pixel-width")
  else
    .ok (sortBreakpoints breakpoints)

/-- The minimum width derived for a screen class: 0 for the first sorted
entry, otherwise the previous entry's maximum width + 1 (src/impl.tsx line
201). -/
def nextMinWidth : Option ℕ∞ → ℕ∞
  | none => 0
  | some m => m + 1

/-- Recursion for `screenClassMediaQueries`, carrying the previous entry's
maximum width, which the source reads by index arithmetic
(`sortedBreakpoints[index - 1][1]`). -/
def mediaQueriesAux (prevMax : Option ℕ∞) :
    List (String × ℕ∞) → List (String × ℕ∞ × ℕ∞)
  | [] => []
  | (sc, maxW) :: rest =>
    (sc, nextMinWidth prevMax, maxW) :: mediaQueriesAux (some maxW) rest

/-- The `screenClassMediaQueries` construction of src/impl.tsx (lines
198-213), keeping the numeric range each media query string renders: for
sorted index 0 the minimum width is 0, for index i > 0 it is the previous
entry's maximum width + 1, and the maximum width is the configured one. -/
def screenClassMediaQueries (sorted : List (String × ℕ∞)) :
    List (String × ℕ∞ × ℕ∞) :=
  mediaQueriesAux none sorted

/-- A pixel width matches a screen class's media query.  The source emits a
`min-width` constraint only when the minimum is nonzero and a `max-width`
constraint only when the maximum is not `Infinity`; over `ℕ∞` both cases
collapse to interval membership. -/
def inRange (w : ℕ) (r : String × ℕ∞ × ℕ∞) : Bool :=
  decide (r.2.1 ≤ (w : ℕ∞)) && decide ((w : ℕ∞) ≤ r.2.2)

/-! Normalizer lemmas. -/

theorem sortBreakpoints_perm (m : List (String × ℕ∞)) :
    List.Perm (sortBreakpoints m) m :=
  List.perm_insertionSort _ m

theorem sortBreakpoints_pairwise (m : List (String × ℕ∞)) :
    (sortBreakpoints m).Pairwise (fun e1 e2 => e1.2 ≤ e2.2) :=
  List.sorted_insertionSort _ m

theorem le_getLast_of_pairwise :
    ∀ (l : List (String × ℕ∞)) (h : l ≠ [])
      (_ : l.Pairwise (fun e1 e2 => e1.2 ≤ e2.2)) (p : String × ℕ∞),
      p ∈ l → p.2 ≤ (l.getLast h).2
  | [], h, _, _, _ => absurd rfl h
  | [a], _, _, p, hp => by
    simp only [List.mem_singleton] at hp
    simp [hp]
  | a :: b :: t, _, hs, p, hp => by
    rw [List.getLast_cons (by simp)]
    rcases List.mem_cons.mp hp with rfl | hp2
    · have hab : ∀ q ∈ b :: t, p.2 ≤ q.2 :=
        fun q hq => List.pairwise_cons.mp hs |>.1 q hq
      exact hab _ (List.getLast_mem _)
    · exact le_getLast_of_pairwise (b :: t) (by simp)
        (List.pairwise_cons.mp hs).2 p hp2

theorem getLast_top_of_sorted (l : List (String × ℕ∞))
    (hs : l.Pairwise (fun e1 e2 => e1.2 ≤ e2.2))
    (hmem : ∃ p ∈ l, p.2 = ⊤) :
    ∃ p, l.getLast? = some p ∧ p.2 = ⊤ := by
  obtain ⟨q, hq, hqtop⟩ := hmem
  have hne : l ≠ [] := by
    intro h
    rw [h] at hq
    exact absurd hq (List.not_mem_nil q)
  refine ⟨l.getLast hne, List.getLast?_eq_getLast l hne, ?_⟩
  have := le_getLast_of_pairwise l hne hs q hq
  rw [hqtop] at this
  exact top_le_iff.mp this

theorem top_mem_sortBreakpoints (m : List (String × ℕ∞))
    (h1 : (m.map Prod.snd).count ⊤ = 1) :
    ∃ p ∈ sortBreakpoints m, p.2 = ⊤ := by
  have htop : (⊤ : ℕ∞) ∈ m.map Prod.snd :=
    List.count_pos_iff.mp (by omega)
  have htop2 : (⊤ : ℕ∞) ∈ (sortBreakpoints m).map Prod.snd :=
    (((sortBreakpoints_perm m).map Prod.snd).mem_iff).mpr htop
  obtain ⟨p, hp, hps⟩ := List.mem_map.mp htop2
  exact ⟨p, hp, hps⟩

/-! Stability of the sort: entries with equal widths keep their relative
order, phrased as commutation with width-filtering. -/

theorem filter_orderedInsert_eq_width (v : ℕ∞) (a : String × ℕ∞)
    (ha : a.2 = v) :
    ∀ s : List (String × ℕ∞),
      (s.orderedInsert (fun e1 e2 => e1.2 ≤ e2.2) a).filter
          (fun e => decide (e.2 = v)) =
        a :: s.filter (fun e => decide (e.2 = v))
  | [] => by simp [List.orderedInsert, ha]
  | b :: t => by
    simp only [List.orderedInsert]
    by_cases hr : a.2 ≤ b.2
    · rw [if_pos hr, List.filter_cons, if_pos (by simp [ha])]
    · have hbv : ¬ (b.2 = v) := by
        intro hb
        exact hr (by rw [ha, hb])
      rw [if_neg hr, List.filter_cons, if_neg (by simp [hbv]),
        filter_orderedInsert_eq_width v a ha t, List.filter_cons,
        if_neg (by simp [hbv])]

theorem filter_orderedInsert_ne_width (v : ℕ∞) (a : String × ℕ∞)
    (ha : ¬ (a.2 = v)) :
    ∀ s : List (String × ℕ∞),
      (s.orderedInsert (fun e1 e2 => e1.2 ≤ e2.2) a).filter
          (fun e => decide (e.2 = v)) =
        s.filter (fun e => decide (e.2 = v))
  | [] => by simp [List.orderedInsert, ha]
  | b :: t => by
    simp only [List.orderedInsert]
    by_cases hr : a.2 ≤ b.2
    · rw [if_pos hr, List.filter_cons, if_neg (by simp [ha])]
    · rw [if_neg hr, List.filter_cons,
        filter_orderedInsert_ne_width v a ha t, List.filter_cons]

theorem sortBreakpoints_filter_width (m : List (String × ℕ∞)) (v : ℕ∞) :
    (sortBreakpoints m).filter (fun e => decide (e.2 = v)) =
      m.filter (fun e => decide (e.2 = v)) := by
  unfold sortBreakpoints
  induction m with
  | nil => rfl
  | cons a t ih =>
    simp only [List.insertionSort]
    by_cases ha : a.2 = v
    · rw [filter_orderedInsert_eq_width v a ha, ih, List.filter_cons,
        if_pos (by simpa using ha)]
    · rw [filter_orderedInsert_ne_width v a ha, ih, List.filter_cons,
        if_neg (by simpa using ha)]

/-- C4: for every breakpoint map, normalization (the validation inside
`createResponsiveSystem`) fails with a ConfigurationError if and only if
the map has fewer than 2 entries or the count of Infinity widths is not
exactly 1; on failure no sorted screen class list is produced, otherwise
normalization succeeds with the sorted list. -/
theorem C4_normalize_validation (m : List (String × ℕ∞)) :
    ((∃ e, normalize m = .error e) ↔
      m.length < 2 ∨ (m.map Prod.snd).count ⊤ ≠ 1) ∧
    (2 ≤ m.length → (m.map Prod.snd).count ⊤ = 1 →
      normalize m = .ok (sortBreakpoints m)) := by
  unfold normalize
  simp only [List.length_map]
  constructor
  · by_cases h1 : m.length < 2
    · simp [h1]
    · rw [if_neg h1]
      by_cases h2 : (m.map Prod.snd).count ⊤ ≠ 1
      · simp [h1, h2]
      · simp [h1, h2]
  · intro h1 h2
    rw [if_neg (by omega), if_neg (by simp [h2])]

/-- Witness for C4 at a concrete valid two-class breakpoint map. -/
theorem C4_witness :
    2 ≤ ([("mobile", ((320 : ℕ) : ℕ∞)), ("desktop", ⊤)] :
      List (String × ℕ∞)).length ∧
    normalize [("mobile", ((320 : ℕ) : ℕ∞)), ("desktop", ⊤)] =
      .ok (sortBreakpoints [("mobile", ((320 : ℕ) : ℕ∞)), ("desktop", ⊤)]) :=
  ⟨by decide, (C4_normalize_validation
    [("mobile", ((320 : ℕ) : ℕ∞)), ("desktop", ⊤)]).2 (by decide) (by decide)⟩

/-- C8: for every breakpoint map with at least two entries and exactly one
Infinity width, `sortBreakpoints` returns a permutation of the entries,
ordered ascending by width, with the Infinity entry last, and the sort is
stable: entries of any fixed width appear in the output in their input
order. -/
theorem C8_sortBreakpoints_sorted_stable (m : List (String × ℕ∞))
    (_h2 : 2 ≤ m.length) (h1 : (m.map Prod.snd).count ⊤ = 1) :
    List.Perm (sortBreakpoints m) m ∧
    (sortBreakpoints m).Pairwise (fun e1 e2 => e1.2 ≤ e2.2) ∧
    (∃ p, (sortBreakpoints m).getLast? = some p ∧ p.2 = ⊤) ∧
    (∀ v : ℕ∞, (sortBreakpoints m).filter (fun e => decide (e.2 = v)) =
      m.filter (fun e => decide (e.2 = v))) :=
  ⟨sortBreakpoints_perm m, sortBreakpoints_pairwise m,
    getLast_top_of_sorted _ (sortBreakpoints_pairwise m)
      (top_mem_sortBreakpoints m h1),
    sortBreakpoints_filter_width m⟩

/-- Witness for C8 at a concrete valid breakpoint map. -/
theorem C8_witness :
    ((([("lg", (⊤ : ℕ∞)), ("xs", ((500 : ℕ) : ℕ∞))] :
        List (String × ℕ∞)).map Prod.snd).count ⊤ = 1) ∧
    (sortBreakpoints [("lg", (⊤ : ℕ∞)), ("xs", ((500 : ℕ) : ℕ∞))]).Pairwise
      (fun e1 e2 => e1.2 ≤ e2.2) :=
  ⟨by decide, (C8_sortBreakpoints_sorted_stable
    [("lg", (⊤ : ℕ∞)), ("xs", ((500 : ℕ) : ℕ∞))] (by decide) (by decide)).2.1⟩

/-! Range construction and coverage lemmas. -/

theorem mediaQueriesAux_get?_zero (pm : Option ℕ∞)
    (l : List (String × ℕ∞)) :
    (mediaQueriesAux pm l).get? 0 =
      (l.get? 0).map (fun e => (e.1, nextMinWidth pm, e.2)) := by
  cases l with
  | nil => rfl
  | cons a t => rfl

theorem mediaQueriesAux_get?_succ :
    ∀ (pm : Option ℕ∞) (l : List (String × ℕ∞)) (i : ℕ),
      (mediaQueriesAux pm l).get? (i + 1) =
        (l.get? i).bind (fun prev =>
          (l.get? (i + 1)).map (fun e => (e.1, prev.2 + 1, e.2)))
  | _, [], _ => rfl
  | pm, (sc, mx) :: rest, 0 => by
    simp only [mediaQueriesAux, List.get?_cons_succ, List.get?_cons_zero,
      Option.bind_some]
    exact mediaQueriesAux_get?_zero (some mx) rest
  | pm, (sc, mx) :: rest, i + 1 => by
    simp only [mediaQueriesAux, List.get?_cons_succ]
    exact mediaQueriesAux_get?_succ (some mx) rest i

theorem mediaQueriesAux_min_ge :
    ∀ (l : List (String × ℕ∞)) (m0 : ℕ∞),
      l.Pairwise (fun e1 e2 => e1.2 ≤ e2.2) →
      (∀ p ∈ l, m0 ≤ p.2) →
      ∀ r ∈ mediaQueriesAux (some m0) l, m0 + 1 ≤ r.2.1
  | [], _, _, _, _, hr => absurd hr (List.not_mem_nil _)
  | (sc, mx) :: rest, m0, hs, hge, r, hr => by
    rcases List.mem_cons.mp hr with rfl | hr2
    · exact le_refl _
    · have hmx : m0 ≤ mx := hge (sc, mx) (List.mem_cons_self _ _)
      have ih := mediaQueriesAux_min_ge rest mx
        (List.pairwise_cons.mp hs).2
        (fun p hp => (List.pairwise_cons.mp hs).1 p hp)
        r hr2
      calc m0 + 1 ≤ mx + 1 := add_le_add_right hmx 1
        _ ≤ r.2.1 := ih

theorem mediaQueriesAux_countP :
    ∀ (l : List (String × ℕ∞)) (pm : Option ℕ∞) (w : ℕ),
      l.Pairwise (fun e1 e2 => e1.2 ≤ e2.2) →
      (∃ p, l.getLast? = some p ∧ p.2 = ⊤) →
      (∀ m0, pm = some m0 → m0 < ((w : ℕ) : ℕ∞)) →
      (mediaQueriesAux pm l).countP (inRange w) = 1
  | [], pm, w, _, hlast, _ => by
    obtain ⟨p, hp, _⟩ := hlast
    simp at hp
  | (sc, mx) :: rest, pm, w, hs, hlast, hpm => by
    have hmin : nextMinWidth pm ≤ ((w : ℕ) : ℕ∞) := by
      cases pm with
      | none => exact zero_le _
      | some m0 => exact Order.add_one_le_of_lt (hpm m0 rfl)
    by_cases hw : ((w : ℕ) : ℕ∞) ≤ mx
    · -- the head range matches and every later range starts above w
      have hhead : inRange w (sc, nextMinWidth pm, mx) = true := by
        simp [inRange, hmin, hw]
      have htail : (mediaQueriesAux (some mx) rest).countP (inRange w) = 0 := by
        apply List.countP_eq_zero.mpr
        intro r hr
        have hge := mediaQueriesAux_min_ge rest mx
          (List.pairwise_cons.mp hs).2
          (fun p hp => (List.pairwise_cons.mp hs).1 p hp) r hr
        simp only [inRange, Bool.and_eq_true, decide_eq_true_eq, not_and]
        intro hmle
        have h1 : mx + 1 ≤ ((w : ℕ) : ℕ∞) := le_trans hge hmle
        have h2 : mx = ((w : ℕ) : ℕ∞) :=
          le_antisymm (le_trans (self_le_add_right mx 1) h1) hw
        rw [h2, show ((w : ℕ) : ℕ∞) + 1 = (((w + 1 : ℕ)) : ℕ∞) by
          push_cast
          ring] at h1
        exact absurd (Nat.cast_le.mp h1) (by omega)
      simp [mediaQueriesAux, List.countP_cons, hhead, htail]
    · -- the head range misses; exactly one match lies in the tail
      push_neg at hw
      have hmxtop : mx ≠ ⊤ := fun h => absurd (h ▸ hw) not_top_lt
      have hrest : rest ≠ [] := by
        intro h
        subst h
        obtain ⟨p, hp, hptop⟩ := hlast
        have hpe : (sc, mx) = p := by simpa using hp
        rw [← hpe] at hptop
        exact hmxtop hptop
      have hlast2 : ∃ p, rest.getLast? = some p ∧ p.2 = ⊤ := by
        obtain ⟨p, hp, hptop⟩ := hlast
        refine ⟨p, ?_, hptop⟩
        cases rest with
        | nil => exact absurd rfl hrest
        | cons b t => rw [List.getLast?_cons_cons] at hp; exact hp
      have hhead : inRange w (sc, nextMinWidth pm, mx) = false := by
        have hnw : ¬ (((w : ℕ) : ℕ∞) ≤ mx) := not_le.mpr hw
        simp [inRange, hnw]
      have ih := mediaQueriesAux_countP rest (some mx) w
        (List.pairwise_cons.mp hs).2 hlast2
        (fun m0 hm0 => by injection hm0 with h; rw [← h]; exact hw)
      simp [mediaQueriesAux, List.countP_cons, hhead, ih]

/-- C5: for every breakpoint map that passes validation, the derived
ranges satisfy: sorted index 0 has minWidth 0, index i + 1 has minWidth
equal to the previous entry's maxWidth + 1, each class keeps its name and
its configured width as maxWidth, and every non-negative integer width
matches exactly one class's range, so the ranges are contiguous and
non-overlapping. -/
theorem C5_ranges_contiguous_cover (m : List (String × ℕ∞))
    (_h2 : 2 ≤ m.length) (h1 : (m.map Prod.snd).count ⊤ = 1) :
    (screenClassMediaQueries (sortBreakpoints m)).get? 0 =
      ((sortBreakpoints m).get? 0).map (fun e => (e.1, 0, e.2)) ∧
    (∀ i : ℕ, (screenClassMediaQueries (sortBreakpoints m)).get? (i + 1) =
      ((sortBreakpoints m).get? i).bind (fun prev =>
        ((sortBreakpoints m).get? (i + 1)).map
          (fun e => (e.1, prev.2 + 1, e.2)))) ∧
    (∀ w : ℕ,
      (screenClassMediaQueries (sortBreakpoints m)).countP (inRange w) = 1) := by
  refine ⟨?_, ?_, ?_⟩
  · have := mediaQueriesAux_get?_zero none (sortBreakpoints m)
    simpa [screenClassMediaQueries, nextMinWidth] using this
  · intro i
    exact mediaQueriesAux_get?_succ none (sortBreakpoints m) i
  · intro w
    exact mediaQueriesAux_countP (sortBreakpoints m) none w
      (sortBreakpoints_pairwise m)
      (getLast_top_of_sorted _ (sortBreakpoints_pairwise m)
        (top_mem_sortBreakpoints m h1))
      (fun m0 hm0 => Option.noConfusion hm0)

/-- Witness for C5 at a concrete valid breakpoint map and width. -/
theorem C5_witness :
    ((([("xs", ((500 : ℕ) : ℕ∞)), ("lg", ⊤)] :
      List (String × ℕ∞)).map Prod.snd).count ⊤ = 1) ∧
    (screenClassMediaQueries (sortBreakpoints
      [("xs", ((500 : ℕ) : ℕ∞)), ("lg", ⊤)])).countP (inRange 501) = 1 :=
  ⟨by decide, (C5_ranges_contiguous_cover
    [("xs", ((500 : ℕ) : ℕ∞)), ("lg", ⊤)] (by decide) (by decide)).2.2 501⟩

/-! Deep-merge lemmas. -/

/-- Reading a key of a value: the value at the key when the value is a
keyed mapping holding it, and none otherwise. -/
def Val.objLookup : Val → String → Option Val
  | .vobj ents, k => assocGet ents k
  | _, _ => none

/-- The keys of a value: its own keys when it is a keyed mapping, and none
otherwise. -/
def Val.objKeys : Val → List String
  | .vobj ents => ents.map Prod.fst
  | _ => []

theorem assocGet_setOrAppend_self (acc : List (String × Val)) (k : String)
    (v : Val) : assocGet (setOrAppend acc k v) k = some v := by
  induction acc with
  | nil => simp [setOrAppend, assocGet]
  | cons e rest ih =>
    obtain ⟨k2, v2⟩ := e
    by_cases h : k2 = k
    · simp [setOrAppend, h, assocGet]
    · simp [setOrAppend, h, assocGet, ih]

theorem assocGet_setOrAppend_ne (acc : List (String × Val)) (k k' : String)
    (v : Val) (h : k' ≠ k) :
    assocGet (setOrAppend acc k v) k' = assocGet acc k' := by
  induction acc with
  | nil => simp [setOrAppend, assocGet, Ne.symm h]
  | cons e rest ih =>
    obtain ⟨k2, v2⟩ := e
    by_cases h2 : k2 = k
    · subst h2
      simp [setOrAppend, assocGet, Ne.symm h]
    · simp only [setOrAppend, if_neg h2]
      by_cases h3 : k2 = k'
      · simp [assocGet, h3]
      · simp [assocGet, h3, ih]

theorem mem_keys_setOrAppend (acc : List (String × Val)) (k k' : String)
    (v : Val) :
    k' ∈ (setOrAppend acc k v).map Prod.fst ↔
      k' ∈ acc.map Prod.fst ∨ k' = k := by
  induction acc with
  | nil => simp [setOrAppend]
  | cons e rest ih =>
    obtain ⟨k2, v2⟩ := e
    by_cases h : k2 = k
    · subst h
      simp [setOrAppend]
      tauto
    · simp [setOrAppend, h, ih]
      tauto

theorem assocGet_eq_none_iff (l : List (String × Val)) (k : String) :
    assocGet l k = none ↔ k ∉ l.map Prod.fst := by
  induction l with
  | nil => simp [assocGet]
  | cons e rest ih =>
    obtain ⟨k2, v2⟩ := e
    by_cases h : k2 = k
    · simp [assocGet, h]
    · simp [assocGet, h, ih, Ne.symm h]

theorem mergeObjects_keys :
    ∀ (o acc : List (String × Val)) (k' : String),
      k' ∈ (mergeObjects acc o).map Prod.fst ↔
        k' ∈ acc.map Prod.fst ∨ k' ∈ o.map Prod.fst
  | [], acc, k' => by simp [mergeObjects]
  | (k, ov) :: rest, acc, k' => by
    rw [show mergeObjects acc ((k, ov) :: rest) =
      mergeObjects (setOrAppend acc k
        (match assocGet acc k with
          | some bv =>
            if bv.isMergeable && ov.isMergeable then deepMerge bv ov else ov
          | none => ov)) rest by simp [mergeObjects]]
    rw [mergeObjects_keys rest _ k', mem_keys_setOrAppend]
    simp
    tauto

theorem mergeObjects_lookup_none :
    ∀ (o acc : List (String × Val)) (k : String),
      assocGet o k = none →
      assocGet (mergeObjects acc o) k = assocGet acc k
  | [], acc, k, _ => by simp [mergeObjects]
  | (k1, ov1) :: rest, acc, k, hnone => by
    have hk1 : ¬ (k1 = k) := by
      intro h
      simp [assocGet, h] at hnone
    have hrest : assocGet rest k = none := by
      simpa [assocGet, hk1] using hnone
    rw [show mergeObjects acc ((k1, ov1) :: rest) =
      mergeObjects (setOrAppend acc k1
        (match assocGet acc k1 with
          | some bv =>
            if bv.isMergeable && ov1.isMergeable then deepMerge bv ov1 else ov1
          | none => ov1)) rest by simp [mergeObjects]]
    rw [mergeObjects_lookup_none rest _ k hrest]
    exact assocGet_setOrAppend_ne _ _ _ _ (fun h => hk1 h.symm)

theorem mergeObjects_lookup :
    ∀ (o acc : List (String × Val)) (k : String),
      (o.map Prod.fst).Nodup →
      assocGet (mergeObjects acc o) k =
        match assocGet o k with
        | none => assocGet acc k
        | some ov =>
          some (match assocGet acc k with
            | some bv =>
              if bv.isMergeable && ov.isMergeable then deepMerge bv ov else ov
            | none => ov)
  | [], acc, k, _ => by simp [mergeObjects, assocGet]
  | (k1, ov1) :: rest, acc, k, hnodup => by
    have hnd1 : k1 ∉ rest.map Prod.fst :=
      (List.nodup_cons.mp (by simpa using hnodup)).1
    have hnd2 : (rest.map Prod.fst).Nodup :=
      (List.nodup_cons.mp (by simpa using hnodup)).2
    rw [show mergeObjects acc ((k1, ov1) :: rest) =
      mergeObjects (setOrAppend acc k1
        (match assocGet acc k1 with
          | some bv =>
            if bv.isMergeable && ov1.isMergeable then deepMerge bv ov1 else ov1
          | none => ov1)) rest by simp [mergeObjects]]
    rw [mergeObjects_lookup rest _ k hnd2]
    by_cases hk : k1 = k
    · subst hk
      have hrestnone : assocGet rest k1 = none :=
        (assocGet_eq_none_iff rest k1).mpr hnd1
      have houter : assocGet ((k1, ov1) :: rest) k1 = some ov1 := by
        simp [assocGet]
      rw [hrestnone, houter]
      show assocGet (setOrAppend acc k1
        (match assocGet acc k1 with
          | some bv =>
            if bv.isMergeable && ov1.isMergeable then deepMerge bv ov1 else ov1
          | none => ov1)) k1 = some _
      rw [assocGet_setOrAppend_self]
    · have houter : assocGet ((k1, ov1) :: rest) k = assocGet rest k := by
        simp [assocGet, hk]
      rw [houter, assocGet_setOrAppend_ne _ _ _ _ (fun h => hk h.symm)]

/-! Shape lemmas for `deepMerge`. -/

theorem deepMerge_vobj_vobj (b o : List (String × Val)) :
    deepMerge (.vobj b) (.vobj o) = .vobj (mergeObjects b o) := by
  simp [deepMerge]

theorem deepMerge_scalar_override (b o : Val)
    (ho : o.isMergeable = false) : deepMerge b o = o := by
  cases o with
  | varr items => simp [Val.isMergeable] at ho
  | vobj entries => simp [Val.isMergeable] at ho
  | vnull => simp [deepMerge]
  | vbool x => simp [deepMerge]
  | vnum x => simp [deepMerge]
  | vstr x => simp [deepMerge]

theorem deepMerge_scalar_base (b o : Val) (hb : b.isMergeable = false)
    (ho : o.isMergeable = true) : deepMerge b o = o := by
  cases o with
  | varr items =>
    cases b with
    | varr bi => simp [Val.isMergeable] at hb
    | vnull => simp [deepMerge]
    | vbool x => simp [deepMerge]
    | vnum x => simp [deepMerge]
    | vstr x => simp [deepMerge]
    | vobj be => simp [Val.isMergeable] at hb
  | vobj entries =>
    cases b with
    | vobj be => simp [Val.isMergeable] at hb
    | vnull => simp [deepMerge]
    | vbool x => simp [deepMerge]
    | vnum x => simp [deepMerge]
    | vstr x => simp [deepMerge]
    | varr bi => simp [Val.isMergeable] at hb
  | vnull => simp [Val.isMergeable] at ho
  | vbool x => simp [Val.isMergeable] at ho
  | vnum x => simp [Val.isMergeable] at ho
  | vstr x => simp [Val.isMergeable] at ho

theorem deepMerge_vobj_shape (x : Val) (o : List (String × Val)) :
    deepMerge x (.vobj o) =
      .vobj (match x with | .vobj b => mergeObjects b o | _ => o) := by
  cases x <;> simp [deepMerge]

theorem objLookup_deepMerge_vobj_none (x : Val) (o : List (String × Val))
    (k : String) (hget : assocGet o k = none) :
    (deepMerge x (.vobj o)).objLookup k = x.objLookup k := by
  rw [deepMerge_vobj_shape]
  cases x with
  | vobj b => exact mergeObjects_lookup_none o b k hget
  | vnull => simpa [Val.objLookup] using hget
  | vbool x => simpa [Val.objLookup] using hget
  | vnum x => simpa [Val.objLookup] using hget
  | vstr x => simpa [Val.objLookup] using hget
  | varr items => simpa [Val.objLookup] using hget

theorem objLookup_deepMerge_vobj_scalar_hit (x : Val)
    (o : List (String × Val)) (k : String) (vb : Val)
    (hnodup : (o.map Prod.fst).Nodup) (hget : assocGet o k = some vb)
    (hvb : vb.isMergeable = false) :
    (deepMerge x (.vobj o)).objLookup k = some vb := by
  rw [deepMerge_vobj_shape]
  cases x with
  | vobj b =>
    show assocGet (mergeObjects b o) k = some vb
    rw [mergeObjects_lookup o b k hnodup, hget]
    cases hbk : assocGet b k with
    | none => rfl
    | some bv => simp [hvb]
  | vnull => exact hget
  | vbool x => exact hget
  | vnum x => exact hget
  | vstr x => exact hget
  | varr items => exact hget

theorem mergeOverrides_append (D : Val) (O : List (String × Val))
    (s1 s2 : List String) :
    mergeOverrides D O (s1 ++ s2) =
      mergeOverrides (mergeOverrides D O s1) O s2 := by
  simp [mergeOverrides, List.foldl_append]

theorem mergeOverrides_preserves_lookup (O : List (String × Val))
    (k : String) (vb : Val) :
    ∀ (s : List String) (acc : Val),
      (∀ cls ∈ s, ∀ v, assocGet O cls = some v →
        ∃ ents, v = .vobj ents ∧ assocGet ents k = none) →
      acc.objLookup k = some vb →
      (mergeOverrides acc O s).objLookup k = some vb
  | [], acc, _, hacc => by simpa [mergeOverrides] using hacc
  | cls :: rest, acc, hcond, hacc => by
    have hstep : mergeOverrides acc O (cls :: rest) =
        mergeOverrides (match assocGet O cls with
          | some ov => deepMerge acc ov
          | none => acc) O rest := by
      simp [mergeOverrides]
    rw [hstep]
    apply mergeOverrides_preserves_lookup O k vb rest _
      (fun c hc => hcond c (List.mem_cons_of_mem _ hc))
    cases hOc : assocGet O cls with
    | none => simpa using hacc
    | some v =>
      obtain ⟨ents, rfl, hents⟩ := hcond cls (List.mem_cons_self _ _) v hOc
      show (deepMerge acc (.vobj ents)).objLookup k = some vb
      rw [objLookup_deepMerge_vobj_none acc ents k hents]
      exact hacc

/-- C2: the merger folds each eligible class's present override onto the
accumulated result via deepMerge; merging two keyed mappings yields the
union of their keys, recursing when both values at a shared key are
mergeable, taking the override's value when either is a scalar, and
keeping the one-sided value otherwise; and a class's scalar field value
survives into the final result when it is the last eligible override
touching that field. -/
theorem C2_merger_deep_merge_semantics :
    (∀ (b o : List (String × Val)) (k : String),
      k ∈ (deepMerge (.vobj b) (.vobj o)).objKeys ↔
        k ∈ b.map Prod.fst ∨ k ∈ o.map Prod.fst) ∧
    (∀ (b o : List (String × Val)) (k : String) (bv ov : Val),
      (o.map Prod.fst).Nodup →
      assocGet b k = some bv → assocGet o k = some ov →
      (bv.isMergeable = true → ov.isMergeable = true →
        (deepMerge (.vobj b) (.vobj o)).objLookup k =
          some (deepMerge bv ov)) ∧
      (bv.isMergeable = false ∨ ov.isMergeable = false →
        (deepMerge (.vobj b) (.vobj o)).objLookup k = some ov)) ∧
    (∀ (b o : List (String × Val)) (k : String),
      (o.map Prod.fst).Nodup →
      (assocGet o k = none →
        (deepMerge (.vobj b) (.vobj o)).objLookup k = assocGet b k) ∧
      (∀ ov, assocGet b k = none → assocGet o k = some ov →
        (deepMerge (.vobj b) (.vobj o)).objLookup k = some ov)) ∧
    (∀ (D : Val) (O : List (String × Val)) (s1 s2 s3 : List String)
      (a bcls : String) (oa ob : List (String × Val)) (k : String)
      (va vb : Val),
      assocGet O a = some (.vobj oa) → assocGet oa k = some va →
      va.isMergeable = false →
      assocGet O bcls = some (.vobj ob) → assocGet ob k = some vb →
      vb.isMergeable = false → (ob.map Prod.fst).Nodup →
      (∀ cls ∈ s3, ∀ v, assocGet O cls = some v →
        ∃ ents, v = .vobj ents ∧ assocGet ents k = none) →
      (mergeOverrides D O (s1 ++ [a] ++ s2 ++ [bcls] ++ s3)).objLookup k =
        some vb) := by
  refine ⟨?_, ?_, ?_, ?_⟩
  · intro b o k
    rw [deepMerge_vobj_vobj]
    exact mergeObjects_keys o b k
  · intro b o k bv ov hnodup hgb hgo
    rw [deepMerge_vobj_vobj]
    constructor
    · intro hbm hom
      show assocGet (mergeObjects b o) k = _
      rw [mergeObjects_lookup o b k hnodup, hgo, hgb]
      simp [hbm, hom]
    · intro hor
      show assocGet (mergeObjects b o) k = _
      rw [mergeObjects_lookup o b k hnodup, hgo, hgb]
      rcases hor with h | h <;> simp [h]
  · intro b o k hnodup
    constructor
    · intro hnone
      rw [deepMerge_vobj_vobj]
      exact mergeObjects_lookup_none o b k hnone
    · intro ov hbnone hgo
      rw [deepMerge_vobj_vobj]
      show assocGet (mergeObjects b o) k = _
      rw [mergeObjects_lookup o b k hnodup, hgo, hbnone]
  · intro D O s1 s2 s3 a bcls oa ob k va vb _hOa _hoak _hva hOb hobk hvb
      hnodupb hs3
    rw [mergeOverrides_append, mergeOverrides_append]
    apply mergeOverrides_preserves_lookup O k vb s3 _ hs3
    have hb1 : mergeOverrides (mergeOverrides D O (s1 ++ [a] ++ s2)) O [bcls] =
        deepMerge (mergeOverrides D O (s1 ++ [a] ++ s2)) (.vobj ob) := by
      simp [mergeOverrides, hOb]
    rw [hb1]
    exact objLookup_deepMerge_vobj_scalar_hit _ ob k vb hnodupb hobk hvb

/-- C2 counterexample to the unrestricted pairwise statement: with three
eligible classes a, b, c all defining the scalar field k, the pair (a, b)
satisfies the claim's premises, yet b's value 2 does not appear in the
final result — c's value 3 does. -/
theorem C2_counterexample :
    (mergeOverrides (.vstr "default")
      [("a", .vobj [("k", .vnum 1)]), ("b", .vobj [("k", .vnum 2)]),
        ("c", .vobj [("k", .vnum 3)])]
      ["a", "b", "c"]).objLookup "k" = some (.vnum 3) ∧
    (mergeOverrides (.vstr "default")
      [("a", .vobj [("k", .vnum 1)]), ("b", .vobj [("k", .vnum 2)]),
        ("c", .vobj [("k", .vnum 3)])]
      ["a", "b", "c"]).objLookup "k" ≠ some (.vnum 2) := by
  have heval : (mergeOverrides (.vstr "default")
      [("a", .vobj [("k", .vnum 1)]), ("b", .vobj [("k", .vnum 2)]),
        ("c", .vobj [("k", .vnum 3)])]
      ["a", "b", "c"]).objLookup "k" = some (.vnum 3) := by
    simp [mergeOverrides, assocGet, deepMerge, mergeObjects, setOrAppend,
      Val.isMergeable, Val.objLookup]
  refine ⟨heval, ?_⟩
  rw [heval]
  intro hcontra
  have h1 : Val.vnum 3 = Val.vnum 2 := Option.some.inj hcontra
  have h2 : (3 : Int) = 2 := by injection h1
  omega

/-- Witness for C2's last-applied-wins conjunct at a concrete default,
override set and eligible sequence. -/
theorem C2_witness :
    (assocGet [("a", Val.vobj [("k", .vnum 1)]),
      ("b", Val.vobj [("k", .vnum 2)])] "b" = some (.vobj [("k", .vnum 2)])) ∧
    (mergeOverrides (.vstr "default")
      [("a", .vobj [("k", .vnum 1)]), ("b", .vobj [("k", .vnum 2)])]
      (([] ++ ["a"] ++ [] ++ ["b"] ++ []) : List String)).objLookup "k" =
      some (.vnum 2) := by
  refine ⟨rfl, ?_⟩
  exact (C2_merger_deep_merge_semantics).2.2.2 (.vstr "default")
    [("a", .vobj [("k", .vnum 1)]), ("b", .vobj [("k", .vnum 2)])]
    [] [] [] "a" "b" [("k", .vnum 1)] [("k", .vnum 2)] "k"
    (.vnum 1) (.vnum 2) rfl rfl rfl rfl rfl rfl (by simp) (by simp)

/-! Positional array merge lemmas. -/

theorem mergeArrays_length :
    ∀ (bs os : List Val), (mergeArrays bs os).length = max bs.length os.length
  | bs, [] => by simp [mergeArrays]
  | [], o :: os => by
    have ih := mergeArrays_length [] os
    simp only [mergeArrays, List.length_cons, ih]
    simp
  | b :: bs, o :: os => by
    have ih := mergeArrays_length bs os
    simp only [mergeArrays, List.length_cons, ih]
    omega

theorem mergeArrays_get?_code :
    ∀ (bs os : List Val) (i : ℕ),
      (mergeArrays bs os).get? i =
        match os.get? i with
        | none => bs.get? i
        | some o => some (if o.isMergeable = true
            then deepMerge ((bs.get? i).getD .vnull) o else o)
  | bs, [], i => by simp [mergeArrays]
  | [], o :: os, 0 => by simp [mergeArrays]
  | [], o :: os, i + 1 => by
    have ih := mergeArrays_get?_code [] os i
    simpa [mergeArrays] using ih
  | b :: bs, o :: os, 0 => by simp [mergeArrays]
  | b :: bs, o :: os, i + 1 => by
    have ih := mergeArrays_get?_code bs os i
    simpa [mergeArrays] using ih

/-- C3: the array merge is positional: each index of the override array
yields the recursive deep merge of the two items when both are mergeable
and otherwise the override's item, indices present only in the base array
are preserved, the result length is the maximum of the two lengths, and
the spec's three concrete examples hold. -/
theorem C3_mergeArrays_positional (bs os : List Val) :
    ((mergeArrays bs os).length = max bs.length os.length) ∧
    (∀ (i : ℕ) (o : Val), os.get? i = some o →
      (∀ b : Val, bs.get? i = some b →
        (mergeArrays bs os).get? i =
          some (if b.isMergeable && o.isMergeable then deepMerge b o else o)) ∧
      (bs.get? i = none → (mergeArrays bs os).get? i = some o)) ∧
    (∀ i : ℕ, os.length ≤ i → (mergeArrays bs os).get? i = bs.get? i) ∧
    (mergeArrays [.vnum 1, .vnum 2, .vnum 3, .vnum 4]
      [.vnum 2, .vnum 4, .vnum 6] = [.vnum 2, .vnum 4, .vnum 6, .vnum 4]) ∧
    (mergeArrays [.vnum 1, .vnum 2, .vnum 3]
      [.vnum 5, .vnum 6, .vnum 7, .vnum 8] =
      [.vnum 5, .vnum 6, .vnum 7, .vnum 8]) ∧
    (deepMerge (.varr [.vobj [("a", .vnum 1)], .vnum 2, .vnum 3])
        (.varr [.vobj [("b", .vnum 2)], .vnum 3, .vnum 4]) =
      .varr [.vobj [("a", .vnum 1), ("b", .vnum 2)], .vnum 3, .vnum 4]) := by
  refine ⟨mergeArrays_length bs os, ?_, ?_, ?_, ?_, ?_⟩
  · intro i o ho
    constructor
    · intro b hb
      have hcode := mergeArrays_get?_code bs os i
      rw [ho, hb] at hcode
      simp only [Option.getD_some] at hcode
      rw [hcode]
      cases hob : o.isMergeable with
      | false => simp [hob]
      | true =>
        cases hbb : b.isMergeable with
        | false => simp [hob, hbb, deepMerge_scalar_base b o hbb hob]
        | true => simp [hob, hbb]
    · intro hnone
      have hcode := mergeArrays_get?_code bs os i
      rw [ho, hnone] at hcode
      simp only [Option.getD_none] at hcode
      rw [hcode]
      cases hob : o.isMergeable with
      | false => simp [hob]
      | true => simp [hob, deepMerge_scalar_base .vnull o rfl hob]
  · intro i hi
    have hcode := mergeArrays_get?_code bs os i
    rw [List.get?_eq_none.mpr hi] at hcode
    exact hcode
  · simp [mergeArrays, Val.isMergeable]
  · simp [mergeArrays, Val.isMergeable]
  · simp [deepMerge, mergeArrays, mergeObjects, assocGet, setOrAppend,
      Val.isMergeable]

/-- Witness for C3's per-index conjunct at a concrete pair of arrays. -/
theorem C3_witness :
    (([.vnum 9] : List Val).get? 0 = some (.vnum 9)) ∧
    (mergeArrays [.vnum 1] [.vnum 9]).get? 0 = some (.vnum 9) := by
  refine ⟨rfl, ?_⟩
  have h := ((C3_mergeArrays_positional [.vnum 1] [.vnum 9]).2.1 0
    (.vnum 9) rfl).1 (.vnum 1) rfl
  simpa [Val.isMergeable] using h

/-! The replacement-only override application of src/impl.tsx. -/

theorem applyOverrides_append {α : Type} (l1 l2 : List String)
    (d : Option α) (ovr : List (String × Option α)) :
    applyOverrides (l1 ++ l2) d ovr =
      applyOverrides l2 (applyOverrides l1 d ovr) ovr := by
  simp [applyOverrides, List.foldl_append]

theorem applyOverrides_absent {α : Type} :
    ∀ (l : List String) (ovr : List (String × Option α)) (acc : Option α),
      (∀ c ∈ l, assocGet ovr c = none) →
      applyOverrides l acc ovr = acc
  | [], _, _, _ => rfl
  | c :: rest, ovr, acc, h => by
    have hc : assocGet ovr c = none := h c (List.mem_cons_self _ _)
    have hstep : applyOverrides (c :: rest) acc ovr =
        applyOverrides rest acc ovr := by
      simp [applyOverrides, hc]
    rw [hstep]
    exact applyOverrides_absent rest ovr acc
      (fun c2 hc2 => h c2 (List.mem_cons_of_mem _ hc2))

/-- C10 counterexample to the unrestricted statement: the override set has
an own-property entry with value undefined for the applicable class a, yet
the result is the later class b's value, not undefined. -/
theorem C10_counterexample :
    applyOverrides ["a", "b"] (some 7)
      [("a", (none : Option ℕ)), ("b", some 5)] = some 5 ∧
    applyOverrides ["a", "b"] (some 7)
      [("a", (none : Option ℕ)), ("b", some 5)] ≠ none := by
  constructor
  · rfl
  · decide

/-- C10 amended: when the override set has an own-property entry whose
value is undefined for an applicable class, and no later applicable class
has an own-property entry, applyOverrides returns undefined rather than
falling back to the default — key presence, not value definedness,
decides whether an override applies. -/
theorem C10_undefined_override_respected (α : Type)
    (applicable1 applicable2 : List String) (sc : String) (d : Option α)
    (ovr : List (String × Option α))
    (hsc : assocGet ovr sc = some none)
    (hlater : ∀ c ∈ applicable2, assocGet ovr c = none) :
    applyOverrides (applicable1 ++ sc :: applicable2) d ovr = none := by
  have h1 : applyOverrides (applicable1 ++ [sc]) d ovr = none := by
    rw [applyOverrides_append]
    simp [applyOverrides, hsc]
  rw [show applicable1 ++ sc :: applicable2 =
      (applicable1 ++ [sc]) ++ applicable2 by simp,
    applyOverrides_append, h1]
  exact applyOverrides_absent applicable2 ovr none hlater

/-- Witness for C10 at a concrete applicable list and override set. -/
theorem C10_witness :
    (assocGet [("a", (none : Option ℕ))] "a" = some none) ∧
    applyOverrides ["a"] (some 3) [("a", (none : Option ℕ))] = none := by
  refine ⟨rfl, ?_⟩
  have h := C10_undefined_override_respected ℕ [] [] "a" (some 3)
    [("a", (none : Option ℕ))] rfl (by simp)
  simpa using h

end ResponsiveSystem
